import Mathlib

/-!
Verification development for the string-analysis-and-query engine of the
`hng-backend-track` repository (`src/routes/strings.ts` plus the D1 schema in
`src/db/schema.sql`).

A JavaScript string iterated by code points (`Array.from`, `for..of`) is
modelled as `List Char`.  Platform primitives the route code calls
(`String.prototype.toLowerCase`, `String.prototype.trim`, `normalize("NFD")`,
`TextEncoder.encode`, `crypto.subtle.digest("SHA-256", _)`, `JSON.parse`,
the few fixed regular expressions, SQLite's `LOWER` and `LIKE`) are given
executable models below, each documented at its definition.
-/

/-- The JavaScript whitespace class: the code points matched by `\s` in a
JavaScript regular expression and trimmed by `String.prototype.trim`. -/
def jsWhitespace (c : Char) : Bool :=
  decide (c.toNat = 9 ∨ c.toNat = 10 ∨ c.toNat = 11 ∨ c.toNat = 12 ∨ c.toNat = 13 ∨
    c.toNat = 32 ∨ c.toNat = 160 ∨ c.toNat = 0x1680 ∨
    (0x2000 ≤ c.toNat ∧ c.toNat ≤ 0x200A) ∨ c.toNat = 0x2028 ∨ c.toNat = 0x2029 ∨
    c.toNat = 0x202F ∨ c.toNat = 0x205F ∨ c.toNat = 0x3000 ∨ c.toNat = 0xFEFF)

/-- Model of `String.prototype.trim`: drop leading and trailing whitespace. -/
def jsTrim (l : List Char) : List Char :=
  ((l.dropWhile jsWhitespace).reverse.dropWhile jsWhitespace).reverse

/-- Model of `String.prototype.includes` (restricted to how the route uses it:
a needle tested for occurrence as a contiguous substring of the haystack). -/
def containsSub (needle : List Char) : List Char → Bool
  | [] => needle.isPrefixOf []
  | c :: t => needle.isPrefixOf (c :: t) || containsSub needle t

/-- Model of `String.prototype.split(/\s+/)` (fuel-driven so that it reduces
in the kernel): cut the list at each maximal whitespace run.  The fuel
`l.length + 1` used by `splitWs` always suffices. -/
def splitWsF : Nat → List Char → List (List Char)
  | 0, _ => []
  | fuel + 1, l =>
    let tok := l.takeWhile (fun c => !jsWhitespace c)
    let rest := l.dropWhile (fun c => !jsWhitespace c)
    match rest with
    | [] => [tok]
    | _ :: _ => tok :: splitWsF fuel (rest.dropWhile jsWhitespace)

/-- `split(/\s+/)` on a list of code points. -/
def splitWs (l : List Char) : List (List Char) := splitWsF (l.length + 1) l

/-- Specification-side count of the maximal whitespace-delimited tokens of a
list: a left-to-right scan that counts each non-whitespace character which
begins a maximal non-whitespace run (`prevWs` records whether the previous
character was whitespace; the scan starts as if one was). -/
def tokenCountAux : Bool → List Char → Nat
  | _, [] => 0
  | prevWs, c :: t =>
    (if prevWs && !jsWhitespace c then 1 else 0) + tokenCountAux (jsWhitespace c) t

/-- The number of maximal whitespace-delimited tokens of a list. -/
def tokenCount (l : List Char) : Nat := tokenCountAux true l

/-- ASCII-only lower-casing: what SQLite's `LOWER` scalar function (without
the ICU extension, as on Cloudflare D1) applies, and what SQLite's `LIKE`
uses to fold case. -/
def sqliteLower (c : Char) : Char :=
  if 65 ≤ c.toNat ∧ c.toNat ≤ 90 then Char.ofNat (c.toNat + 32) else c

/-- Model of `String.prototype.toLowerCase`, per code point, on the fragment
of Unicode this development exercises: ASCII letters, the Latin-1 letters
with a simple one-to-one lowering, and the Kelvin sign (an example of a
non-ASCII code point whose JavaScript lowering is an ASCII letter).  Code
points outside this fragment are left unchanged. -/
def jsToLower (c : Char) : Char :=
  if 65 ≤ c.toNat ∧ c.toNat ≤ 90 then Char.ofNat (c.toNat + 32)
  else if (0xC0 ≤ c.toNat ∧ c.toNat ≤ 0xDE) ∧ c.toNat ≠ 0xD7 then Char.ofNat (c.toNat + 32)
  else if c.toNat = 0x212A then 'k'
  else c

/-- The combining diacritical marks block U+0300–U+036F, the range the
route's accent-stripping regular expression `/[̀-ͯ]/g` removes. -/
def isCombiningMark (c : Char) : Bool :=
  decide (0x300 ≤ c.toNat ∧ c.toNat ≤ 0x36F)

/-- ASCII letters and digits: the code points kept by the route's regular
expression replace `/[^a-z0-9]/gi` (case-insensitive, so uppercase ASCII
letters are kept as well). -/
def isAsciiAlnumChar (c : Char) : Bool :=
  decide ((97 ≤ c.toNat ∧ c.toNat ≤ 122) ∨ (65 ≤ c.toNat ∧ c.toNat ≤ 90) ∨
    (48 ≤ c.toNat ∧ c.toNat ≤ 57))

/-- Model of `String.prototype.normalize("NFD")`, per code point, on the
fragment of Unicode this development exercises: the precomposed Latin-1
lowercase letters decompose into their base letter followed by the combining
mark; code points outside this fragment are left unchanged. -/
def nfdChar (c : Char) : List Char :=
  if c.toNat = 0xE0 then ['a', Char.ofNat 0x300]
  else if c.toNat = 0xE1 then ['a', Char.ofNat 0x301]
  else if c.toNat = 0xE2 then ['a', Char.ofNat 0x302]
  else if c.toNat = 0xE4 then ['a', Char.ofNat 0x308]
  else if c.toNat = 0xE7 then ['c', Char.ofNat 0x327]
  else if c.toNat = 0xE8 then ['e', Char.ofNat 0x300]
  else if c.toNat = 0xE9 then ['e', Char.ofNat 0x301]
  else if c.toNat = 0xEA then ['e', Char.ofNat 0x302]
  else if c.toNat = 0xEB then ['e', Char.ofNat 0x308]
  else if c.toNat = 0xEC then ['i', Char.ofNat 0x300]
  else if c.toNat = 0xED then ['i', Char.ofNat 0x301]
  else if c.toNat = 0xEE then ['i', Char.ofNat 0x302]
  else if c.toNat = 0xEF then ['i', Char.ofNat 0x308]
  else if c.toNat = 0xF1 then ['n', Char.ofNat 0x303]
  else if c.toNat = 0xF2 then ['o', Char.ofNat 0x300]
  else if c.toNat = 0xF3 then ['o', Char.ofNat 0x301]
  else if c.toNat = 0xF4 then ['o', Char.ofNat 0x302]
  else if c.toNat = 0xF6 then ['o', Char.ofNat 0x308]
  else if c.toNat = 0xF9 then ['u', Char.ofNat 0x300]
  else if c.toNat = 0xFA then ['u', Char.ofNat 0x301]
  else if c.toNat = 0xFB then ['u', Char.ofNat 0x302]
  else if c.toNat = 0xFC then ['u', Char.ofNat 0x308]
  else [c]

example : jsTrim ("  ab c ".toList) = "ab c".toList := by decide
example : splitWs ("one two  three".toList) = ["one".toList, "two".toList, "three".toList] := by decide
example : tokenCount ("one two  three".toList) = 3 := by decide
example : containsSub ("single word".toList) ("a single word x".toList) = true := by decide
example : containsSub ("single word".toList) ("a singleword x".toList) = false := by decide

/-! ## SHA-256 (model of `crypto.subtle.digest("SHA-256", bytes)`)

Bytes and 32-bit words are plain `Nat`s kept below their width by explicit
`% 2 ^ 32` reductions.  The round constants are not transcribed from a
table: they are computed, as the standard defines them, from the fractional
parts of the square and cube roots of the first primes. -/

/-- UTF-8 encoding of one code point (model of `TextEncoder.encode`). -/
def utf8Char (c : Char) : List Nat :=
  let n := c.toNat
  if n < 0x80 then [n]
  else if n < 0x800 then [0xC0 + n / 64, 0x80 + n % 64]
  else if n < 0x10000 then [0xE0 + n / 4096, 0x80 + (n / 64) % 64, 0x80 + n % 64]
  else [0xF0 + n / 262144, 0x80 + (n / 4096) % 64, 0x80 + (n / 64) % 64, 0x80 + n % 64]

/-- UTF-8 encoding of a list of code points. -/
def utf8Encode (v : List Char) : List Nat := v.flatMap utf8Char

/-- Reduce to a 32-bit word. -/
def w32 (n : Nat) : Nat := n % 4294967296

/-- Right rotation of a 32-bit word. -/
def rotr32 (r x : Nat) : Nat := w32 ((x >>> r) ||| (x <<< (32 - r)))

/-- Bitwise complement of a 32-bit word. -/
def not32 (x : Nat) : Nat := x ^^^ 4294967295

def shaCh (x y z : Nat) : Nat := (x &&& y) ^^^ (not32 x &&& z)

def shaMaj (x y z : Nat) : Nat := (x &&& y) ^^^ (x &&& z) ^^^ (y &&& z)

def shaBigSigma0 (x : Nat) : Nat := rotr32 2 x ^^^ rotr32 13 x ^^^ rotr32 22 x

def shaBigSigma1 (x : Nat) : Nat := rotr32 6 x ^^^ rotr32 11 x ^^^ rotr32 25 x

def shaSmallSigma0 (x : Nat) : Nat := rotr32 7 x ^^^ rotr32 18 x ^^^ (x >>> 3)

def shaSmallSigma1 (x : Nat) : Nat := rotr32 17 x ^^^ rotr32 19 x ^^^ (x >>> 10)

/-- Integer cube root by binary search (the fuel of 200 steps is ample for
every argument used here). -/
def icbrtGo : Nat → Nat → Nat → Nat → Nat
  | 0, _, lo, _ => lo
  | fuel + 1, n, lo, hi =>
    if hi ≤ lo then lo
    else
      let mid := (lo + hi + 1) / 2
      if mid * mid * mid ≤ n then icbrtGo fuel n mid hi else icbrtGo fuel n lo (mid - 1)

def icbrt (n : Nat) : Nat := icbrtGo 200 n 0 n

/-- The first 64 primes, whose roots seed the SHA-256 constants. -/
def sha64Primes : List Nat :=
  [2, 3, 5, 7, 11, 13, 17, 19, 23, 29, 31, 37, 41, 43, 47, 53,
   59, 61, 67, 71, 73, 79, 83, 89, 97, 101, 103, 107, 109, 113, 127, 131,
   137, 139, 149, 151, 157, 163, 167, 173, 179, 181, 191, 193, 197, 199, 211, 223,
   227, 229, 233, 239, 241, 251, 257, 263, 269, 271, 277, 281, 283, 293, 307, 311]

/-- The round constants: the first 32 bits of the fractional parts of the
cube roots of the first 64 primes. -/
def shaK : List Nat := sha64Primes.map (fun p => icbrt (p * 2 ^ 96) % 2 ^ 32)

/-- The initial hash value: the first 32 bits of the fractional parts of the
square roots of the first 8 primes. -/
def shaH0 : List Nat := (sha64Primes.take 8).map (fun p => Nat.sqrt (p * 2 ^ 64) % 2 ^ 32)

/-- A 64-bit big-endian length field. -/
def be64 (n : Nat) : List Nat :=
  [(n / 2 ^ 56) % 256, (n / 2 ^ 48) % 256, (n / 2 ^ 40) % 256, (n / 2 ^ 32) % 256,
   (n / 2 ^ 24) % 256, (n / 2 ^ 16) % 256, (n / 2 ^ 8) % 256, n % 256]

/-- SHA-256 padding: append `0x80`, zeros to 56 mod 64, and the bit length. -/
def shaPad (msg : List Nat) : List Nat :=
  msg ++ [0x80] ++ List.replicate ((64 - (msg.length + 9) % 64) % 64) 0 ++ be64 (8 * msg.length)

/-- Cut a byte list into 64-byte blocks (fuel-driven; `shaBlocks` supplies
enough fuel for any input). -/
def shaBlocksF : Nat → List Nat → List (List Nat)
  | 0, _ => []
  | _, [] => []
  | fuel + 1, l => l.take 64 :: shaBlocksF fuel (l.drop 64)

def shaBlocks (l : List Nat) : List (List Nat) := shaBlocksF (l.length + 1) l

/-- The 16 big-endian 32-bit words of a 64-byte block. -/
def shaWords : List Nat → List Nat
  | b0 :: b1 :: b2 :: b3 :: r => (((b0 * 256 + b1) * 256 + b2) * 256 + b3) :: shaWords r
  | _ => []

/-- Extend the 16-word schedule by `n` more words. -/
def shaExtend : List Nat → Nat → List Nat
  | w, 0 => w
  | w, n + 1 =>
    let i := w.length
    shaExtend (w ++ [w32 (shaSmallSigma1 (w.getD (i - 2) 0) + w.getD (i - 7) 0 +
      shaSmallSigma0 (w.getD (i - 15) 0) + w.getD (i - 16) 0)]) n

/-- One compression round on the eight working registers. -/
def shaRound (regs : List Nat) (wk : Nat × Nat) : List Nat :=
  match regs with
  | [a, b, c, d, e, f, g, h] =>
    let t1 := w32 (h + shaBigSigma1 e + shaCh e f g + wk.2 + wk.1)
    let t2 := w32 (shaBigSigma0 a + shaMaj a b c)
    [w32 (t1 + t2), a, b, c, w32 (d + t1), e, f, g]
  | _ => regs

/-- The SHA-256 digest (32 bytes) of a byte sequence. -/
def sha256 (msg : List Nat) : List Nat :=
  let finalH := (shaBlocks (shaPad msg)).foldl
    (fun hs block =>
      let ws := shaExtend (shaWords block) 48
      let rs := (ws.zip shaK).foldl shaRound hs
      (hs.zip rs).map (fun p => w32 (p.1 + p.2)))
    shaH0
  finalH.flatMap (fun w => [(w / 2 ^ 24) % 256, (w / 2 ^ 16) % 256, (w / 2 ^ 8) % 256, w % 256])

/-- One lowercase hexadecimal digit. -/
def hexDigit (n : Nat) : Char :=
  if n < 10 then Char.ofNat (48 + n) else Char.ofNat (87 + n)

/-- Model of the route's `toHex`: each byte as two lowercase hex digits,
concatenated. -/
def toHex (bytes : List Nat) : List Char :=
  bytes.flatMap (fun b => [hexDigit (b / 16), hexDigit (b % 16)])

/-- The hex-encoded SHA-256 digest of the UTF-8 bytes of a value: the
route's content hash. -/
def sha256HexOfValue (value : List Char) : List Char := toHex (sha256 (utf8Encode value))

/-! ## JSON (model of `JSON.parse` for the fragment this application stores)

`JSON.parse` is modelled for JSON documents built from `null`, booleans,
integer numbers, strings (with the single-character escapes and `\uXXXX`
for a valid scalar), arrays and objects.  `Json.obj` keeps the members in
document order, as a JavaScript object preserves insertion order. -/

inductive Json where
  | null : Json
  | bool (b : Bool) : Json
  | num (n : Int) : Json
  | str (s : List Char) : Json
  | arr (elems : List Json) : Json
  | obj (members : List (List Char × Json)) : Json

/-- JSON insignificant whitespace. -/
def jsonWsChar (c : Char) : Bool := c = ' ' || c = '\t' || c = '\n' || c = '\r'

/-- The value of a hexadecimal digit. -/
def hexVal (c : Char) : Option Nat :=
  if 48 ≤ c.toNat ∧ c.toNat ≤ 57 then some (c.toNat - 48)
  else if 97 ≤ c.toNat ∧ c.toNat ≤ 102 then some (c.toNat - 87)
  else if 65 ≤ c.toNat ∧ c.toNat ≤ 70 then some (c.toNat - 55)
  else none

/-- The character a single-letter JSON escape stands for. -/
def jsonEscChar : Char → Option Char
  | '"' => some '"'
  | '\\' => some '\\'
  | '/' => some '/'
  | 'b' => some (Char.ofNat 8)
  | 'f' => some (Char.ofNat 12)
  | 'n' => some '\n'
  | 'r' => some '\r'
  | 't' => some '\t'
  | _ => none

/-- Parse the body of a JSON string after its opening quote: the decoded
characters and the input after the closing quote. -/
def parseJsonStringBody : List Char → Option (List Char × List Char)
  | [] => none
  | '"' :: r => some ([], r)
  | '\\' :: 'u' :: h1 :: h2 :: h3 :: h4 :: r =>
    (match hexVal h1, hexVal h2, hexVal h3, hexVal h4 with
     | some a, some b, some c, some d =>
       let n := ((a * 16 + b) * 16 + c) * 16 + d
       if n.isValidChar then
         (parseJsonStringBody r).map (fun p => (Char.ofNat n :: p.1, p.2))
       else none
     | _, _, _, _ => none)
  | '\\' :: e :: r =>
    (match jsonEscChar e with
     | some c => (parseJsonStringBody r).map (fun p => (c :: p.1, p.2))
     | none => none)
  | c :: r =>
    if c = '\\' then none
    else (parseJsonStringBody r).map (fun p => (c :: p.1, p.2))

/-- Parse a JSON integer numeral: optional minus, digits, no leading zero;
a following `.`, `e` or `E` (a non-integer numeral) is outside the modelled
fragment and fails. -/
def parseJsonNumber (s : List Char) : Option (Int × List Char) :=
  let (neg, s1) := match s with
    | '-' :: r => (true, r)
    | _ => (false, s)
  let ds := s1.takeWhile Char.isDigit
  let rest := s1.dropWhile Char.isDigit
  if ds = [] then none
  else if 2 ≤ ds.length ∧ ds.headD '0' = '0' then none
  else if rest.headD ' ' = '.' ∨ rest.headD ' ' = 'e' ∨ rest.headD ' ' = 'E' then none
  else
    let n : Nat := ds.foldl (fun a c => a * 10 + (c.toNat - 48)) 0
    some (if neg then -(n : Int) else (n : Int), rest)

/-- The recursive-descent state: a value, the elements after the first of an
array, or the members of an object. -/
inductive JMode where
  | value : JMode
  | arrTail (acc : List Json) : JMode
  | objTail (acc : List (List Char × Json)) : JMode

/-- Fuel-driven recursive descent over the modelled JSON fragment. -/
def parseJ : Nat → JMode → List Char → Option (Json × List Char)
  | 0, _, _ => none
  | fuel + 1, JMode.value, s =>
    (match s.dropWhile jsonWsChar with
     | 'n' :: 'u' :: 'l' :: 'l' :: r => some (Json.null, r)
     | 't' :: 'r' :: 'u' :: 'e' :: r => some (Json.bool true, r)
     | 'f' :: 'a' :: 'l' :: 's' :: 'e' :: r => some (Json.bool false, r)
     | '"' :: r => (parseJsonStringBody r).map (fun p => (Json.str p.1, p.2))
     | '[' :: r =>
       (match r.dropWhile jsonWsChar with
        | ']' :: r2 => some (Json.arr [], r2)
        | _ => parseJ fuel (JMode.arrTail []) r)
     | '{' :: r =>
       (match r.dropWhile jsonWsChar with
        | '}' :: r2 => some (Json.obj [], r2)
        | _ => parseJ fuel (JMode.objTail []) r)
     | r => (parseJsonNumber r).map (fun p => (Json.num p.1, p.2)))
  | fuel + 1, JMode.arrTail acc, s =>
    (match parseJ fuel JMode.value s with
     | some (v, r) =>
       (match r.dropWhile jsonWsChar with
        | ',' :: r2 => parseJ fuel (JMode.arrTail (acc ++ [v])) r2
        | ']' :: r2 => some (Json.arr (acc ++ [v]), r2)
        | _ => none)
     | none => none)
  | fuel + 1, JMode.objTail acc, s =>
    (match s.dropWhile jsonWsChar with
     | '"' :: r =>
       (match parseJsonStringBody r with
        | some (key, r1) =>
          (match r1.dropWhile jsonWsChar with
           | ':' :: r2 =>
             (match parseJ fuel JMode.value r2 with
              | some (v, r3) =>
                (match r3.dropWhile jsonWsChar with
                 | ',' :: r4 => parseJ fuel (JMode.objTail (acc ++ [(key, v)])) r4
                 | '}' :: r4 => some (Json.obj (acc ++ [(key, v)]), r4)
                 | _ => none)
              | none => none)
           | _ => none)
        | none => none)
     | _ => none)

/-- Model of `JSON.parse` on the fragment above: `none` where `JSON.parse`
throws. -/
def jsonParse (raw : List Char) : Option Json :=
  match parseJ (2 * raw.length + 2) JMode.value raw with
  | some (v, r) => if (r.dropWhile jsonWsChar).isEmpty then some v else none
  | none => none

/-- JavaScript's `parsed && typeof parsed === "object"`: `typeof` is
`"object"` for objects, arrays and `null`, and `null` is the one falsy value
among those. -/
def jsTruthyObject : Json → Bool
  | Json.obj _ => true
  | Json.arr _ => true
  | _ => false

/-! ## The data model and the property computer (`src/routes/strings.ts`) -/

/-- `StringProperties` as the route computes and stores it.  The
`character_frequency_map` is `Json`-typed: the route's TypeScript annotates
it `Record<string, number>`, but the value read back through
`parseFrequencyMap` can be any JSON value the cast lets through. -/
structure StringProperties where
  length : Nat
  is_palindrome : Bool
  unique_characters : Nat
  word_count : Nat
  sha256_hash : List Char
  character_frequency_map : Json

/-- A stored record as the route returns it. -/
structure StoredStringRecord where
  id : List Char
  value : List Char
  properties : StringProperties
  created_at : List Char

/-- A row of the `strings` table as the route's queries select it
(`is_palindrome` is an INTEGER column, written `1`/`0` by the insert). -/
structure StoredStringRow where
  id : List Char
  value : List Char
  length : Nat
  is_palindrome : Nat
  unique_characters : Nat
  word_count : Nat
  character_frequency_map : List Char
  created_at : List Char

/-- `QueryFilters`: every filter optional, conjunctive when combined. -/
structure QueryFilters where
  is_palindrome : Option Bool := none
  min_length : Option Nat := none
  max_length : Option Nat := none
  word_count : Option Nat := none
  contains_character : Option Char := none
deriving DecidableEq

/-- The route's `normalizeForPalindrome`: lower-case, decompose (NFD),
remove the U+0300–U+036F combining marks, then strip every character that
is not an ASCII letter or digit. -/
def normalizeForPalindrome (input : List Char) : List Char :=
  ((((input.map jsToLower).flatMap nfdChar).filter
    (fun c => !isCombiningMark c)).filter isAsciiAlnumChar)

/-- The route's `calculateWordCount`: trim, `0` for an empty trim, else the
number of pieces of `split(/\s+/)`. -/
def calculateWordCount (input : List Char) : Nat :=
  let trimmed := jsTrim input
  if trimmed.length = 0 then 0 else (splitWs trimmed).length

/-- One step of the route's frequency-map loop: bump the count of `c`,
keeping first-insertion order as a JavaScript object does. -/
def bumpChar : List (Char × Nat) → Char → List (Char × Nat)
  | [], c => [(c, 1)]
  | (k, v) :: rest, c =>
    if k = c then (k, v + 1) :: rest else (k, v) :: bumpChar rest c

/-- The route's `buildCharacterFrequencyMap`, as an insertion-ordered
association list. -/
def buildCharacterFrequencyMap (input : List Char) : List (Char × Nat) :=
  input.foldl bumpChar []

/-- A frequency association list as the JSON object `JSON.stringify` would
produce and the route's record carries. -/
def freqMapToJson (m : List (Char × Nat)) : Json :=
  Json.obj (m.map (fun p => ([p.1], Json.num (Int.ofNat p.2))))

/-- The route's `computeStringProperties` (pure part of the async function:
`crypto.subtle.digest` is the SHA-256 model). -/
def computeStringProperties (value : List Char) : StringProperties :=
  let normalized := normalizeForPalindrome value
  let reversed := normalized.reverse
  { length := value.length
    is_palindrome := decide (0 < normalized.length) && (normalized == reversed)
    unique_characters := value.dedup.length
    word_count := calculateWordCount value
    sha256_hash := sha256HexOfValue value
    character_frequency_map := freqMapToJson (buildCharacterFrequencyMap value) }

/-- The route's `parseFrequencyMap`: `JSON.parse` the stored text; keep the
result when it is a truthy `typeof "object"` value; otherwise (including a
parse throw) fall through to the empty object. -/
def parseFrequencyMap (raw : List Char) : Json :=
  match jsonParse raw with
  | some parsed => if jsTruthyObject parsed then parsed else Json.obj []
  | none => Json.obj []

/-- The route's `mapRowToRecord` (`Boolean(row.is_palindrome)` is JavaScript
number truthiness: nonzero). -/
def mapRowToRecord (row : StoredStringRow) : StoredStringRecord :=
  { id := row.id
    value := row.value
    properties :=
      { length := row.length
        is_palindrome := decide (row.is_palindrome ≠ 0)
        unique_characters := row.unique_characters
        word_count := row.word_count
        sha256_hash := row.id
        character_frequency_map := parseFrequencyMap row.character_frequency_map }
    created_at := row.created_at }

example : (computeStringProperties ("hello".toList)).word_count = 1 := by decide
example : (computeStringProperties ("one two  three".toList)).word_count = 3 := by decide
example : (computeStringProperties ("Aa".toList)).unique_characters = 2 := by decide

/-! ## The filter engine: the in-memory pass and the SQL `WHERE` pass -/

/-- The predicate of the route's `applyFilters` callback, with its
early-return structure: a record passes when no provided filter rejects it.
The `contains_character` test lowers both sides with JavaScript's
`toLowerCase` and asks for substring containment. -/
def recordMatchesFilters (filters : QueryFilters) (record : StoredStringRecord) : Bool :=
  if filters.is_palindrome.elim false
      (fun b => record.properties.is_palindrome != b) then false
  else if filters.min_length.elim false
      (fun m => decide (record.properties.length < m)) then false
  else if filters.max_length.elim false
      (fun m => decide (m < record.properties.length)) then false
  else if filters.word_count.elim false
      (fun w => record.properties.word_count != w) then false
  else if filters.contains_character.elim false
      (fun ch => !containsSub [jsToLower ch] (record.value.map jsToLower)) then false
  else true

/-- The route's `applyFilters`. -/
def applyFilters (records : List StoredStringRecord) (filters : QueryFilters) :
    List StoredStringRecord :=
  records.filter (fun record => recordMatchesFilters filters record)

/-- SQLite `LIKE` (fuel-driven so that it reduces in the kernel): `%`
matches any sequence, `_` any one character, and any other pattern
character matches up to ASCII case folding.  The fuel
`pattern.length + s.length + 1` used by `likeMatch` always suffices. -/
def likeMatchF : Nat → List Char → List Char → Bool
  | 0, _, _ => false
  | _, [], s => s.isEmpty
  | fuel + 1, a :: p, s =>
    if a = '%' then
      likeMatchF fuel p s ||
        (match s with
         | [] => false
         | _ :: t => likeMatchF fuel ('%' :: p) t)
    else if a = '_' then
      (match s with
       | [] => false
       | _ :: t => likeMatchF fuel p t)
    else
      (match s with
       | [] => false
       | b :: t => (sqliteLower a == sqliteLower b) && likeMatchF fuel p t)

/-- SQLite `LIKE pattern` applied to a string. -/
def likeMatch (pattern s : List Char) : Bool :=
  likeMatchF (pattern.length + s.length + 1) pattern s

/-- The `WHERE` conditions the route's `fetchRecords` builds, evaluated on a
row as SQLite evaluates them: `is_palindrome = ?` against `1`/`0`,
`length >= ?`, `length <= ?`, `word_count = ?`, and
`LOWER(value) LIKE '%c%'` where the bound parameter is the JavaScript-lowered
filter character (the route binds `filters.contains_character.toLowerCase()`). -/
def fetchRecordsWhere (filters : QueryFilters) (row : StoredStringRow) : Bool :=
  filters.is_palindrome.elim true (fun b => row.is_palindrome == (if b then 1 else 0)) &&
  filters.min_length.elim true (fun m => decide (m ≤ row.length)) &&
  filters.max_length.elim true (fun m => decide (row.length ≤ m)) &&
  filters.word_count.elim true (fun w => row.word_count == w) &&
  filters.contains_character.elim true
    (fun ch => likeMatch ('%' :: jsToLower ch :: ['%']) (row.value.map sqliteLower))

/-- The route's `fetchRecords` without its ordering clause (no claim here
concerns `ORDER BY created_at DESC`): the rows the `WHERE` conditions keep,
mapped through `mapRowToRecord`. -/
def fetchRecords (rows : List StoredStringRow) (filters : QueryFilters) :
    List StoredStringRecord :=
  (rows.filter (fun row => fetchRecordsWhere filters row)).map mapRowToRecord

/-! ## The natural-language filter parser -/

/-- Search the suffixes of a list, leftmost first, for the first one on
which a positional matcher succeeds: how a JavaScript regular expression
finds its leftmost match. -/
def searchSuffixes (f : List Char → Option α) : List Char → Option α
  | [] => f []
  | c :: t =>
    match f (c :: t) with
    | some r => some r
    | none => searchSuffixes f t

/-- `/longer than\s*(\d+)/` at one position: the literal `longer than`, any
whitespace, then a maximal nonempty digit run (no backtracking is lost:
whitespace and digits are disjoint, so the greedy `\s*` is exact). -/
def matchLongerThanAt (s : List Char) : Option Nat :=
  if ("longer than".toList).isPrefixOf s then
    let r := (s.drop 11).dropWhile jsWhitespace
    let ds := r.takeWhile Char.isDigit
    if ds = [] then none
    else some (ds.foldl (fun a c => a * 10 + (c.toNat - 48)) 0)
  else none

/-- The match of `/longer than\s*(\d+)/`, searched across the query.  The
captured digits are read exactly (the JavaScript `Number(...)` is exact for
every integer below 2^53; larger captures are outside the model). -/
def matchLongerThan (s : List Char) : Option Nat := searchSuffixes matchLongerThanAt s

/-- The tail `kw ++ \s*([a-z])` of the two contains-regexes: the keyword
(`letter` or `character`), any whitespace, one lowercase ASCII letter. -/
def kwTail (kw : List Char) (r : List Char) : Option Char :=
  if kw.isPrefixOf r then
    match (r.drop kw.length).dropWhile jsWhitespace with
    | ch :: _ => if 97 ≤ ch.toNat ∧ ch.toNat ≤ 122 then some ch else none
    | [] => none
  else none

/-- After `contain(ing)`: `\s+`, then the optional `the\s+` (tried first, as
the greedy optional group is), then the keyword tail. -/
def containTail (kw : List Char) (r : List Char) : Option Char :=
  match r with
  | [] => none
  | c :: _ =>
    if jsWhitespace c then
      let r1 := r.dropWhile jsWhitespace
      let withThe : Option Char :=
        if ("the".toList).isPrefixOf r1 then
          match r1.drop 3 with
          | d :: _ =>
            if jsWhitespace d then kwTail kw ((r1.drop 3).dropWhile jsWhitespace) else none
          | [] => none
        else none
      match withThe with
      | some ch => some ch
      | none => kwTail kw r1
    else none

/-- `/contain(?:ing)?\s+(?:the\s+)?kw\s*([a-z])/` at one position: the
literal `contain`, the optional `ing` (greedy, so tried first), then the
tail. -/
def matchContainsAt (kw : List Char) (s : List Char) : Option Char :=
  if ("contain".toList).isPrefixOf s then
    let r0 := s.drop 7
    let withIng : Option Char :=
      if ("ing".toList).isPrefixOf r0 then containTail kw (r0.drop 3) else none
    match withIng with
    | some c => some c
    | none => containTail kw r0
  else none

/-- The match of the contains-regex with the given keyword, searched across
the query. -/
def matchContainsKw (kw : List Char) (s : List Char) : Option Char :=
  searchSuffixes (matchContainsAt kw) s

/-- The keyword of the letter-regex. -/
def kwLetter : List Char := "letter".toList

/-- The keyword of the character-regex. -/
def kwCharacter : List Char := "character".toList

/-- Whether the lowered query contains `single word`. -/
def hasSingleWordPhrase (lower : List Char) : Bool :=
  containsSub ("single word".toList) lower

/-- Whether the lowered query contains `palindromic` or `palindrome`. -/
def hasPalindromePhrase (lower : List Char) : Bool :=
  containsSub ("palindromic".toList) lower || containsSub ("palindrome".toList) lower

/-- Whether the lowered query contains `first vowel`. -/
def hasFirstVowelPhrase (lower : List Char) : Bool :=
  containsSub ("first vowel".toList) lower

/-- The mutable state of `parseNaturalLanguageQuery`: the filters built so
far, the conflict keys pushed so far, and the `parsed` flag. -/
structure ParseState where
  filters : QueryFilters
  conflicts : List String
  parsed : Bool
deriving DecidableEq

/-- The parser's `setFilter` for `word_count`: push a conflict when the
field holds a different value; set it and flag `parsed` when unset. -/
def setFilterWordCount (st : ParseState) (v : Nat) : ParseState :=
  match st.filters.word_count with
  | some w => if w ≠ v then { st with conflicts := st.conflicts ++ ["word_count"] } else st
  | none => { st with filters := { st.filters with word_count := some v }, parsed := true }

/-- The parser's `setFilter` for `is_palindrome`. -/
def setFilterIsPalindrome (st : ParseState) (v : Bool) : ParseState :=
  match st.filters.is_palindrome with
  | some b => if b ≠ v then { st with conflicts := st.conflicts ++ ["is_palindrome"] } else st
  | none => { st with filters := { st.filters with is_palindrome := some v }, parsed := true }

/-- The parser's `setFilter` for `min_length`. -/
def setFilterMinLength (st : ParseState) (v : Nat) : ParseState :=
  match st.filters.min_length with
  | some m => if m ≠ v then { st with conflicts := st.conflicts ++ ["min_length"] } else st
  | none => { st with filters := { st.filters with min_length := some v }, parsed := true }

/-- The parser's `setFilter` for `contains_character`. -/
def setFilterContainsCharacter (st : ParseState) (v : Char) : ParseState :=
  match st.filters.contains_character with
  | some c =>
    if c ≠ v then { st with conflicts := st.conflicts ++ ["contains_character"] } else st
  | none =>
    { st with filters := { st.filters with contains_character := some v }, parsed := true }

/-- The first three phrase rules of `parseNaturalLanguageQuery` (the rules
that assign `word_count`, `is_palindrome` and `min_length`), applied in
program order to the lowered query, from the parser's initial state. -/
def runLengthRules (lower : List Char) : ParseState :=
  let st0 : ParseState := ⟨{}, [], false⟩
  let st1 := if hasSingleWordPhrase lower then setFilterWordCount st0 1 else st0
  let st2 := if hasPalindromePhrase lower then setFilterIsPalindrome st1 true else st1
  match matchLongerThan lower with
  | some n => setFilterMinLength st2 (n + 1)
  | none => st2

/-- The last three phrase rules of `parseNaturalLanguageQuery` (the rules
that assign `contains_character`), applied in program order. -/
def runCCRules (st : ParseState) (lower : List Char) : ParseState :=
  let st4 := if hasFirstVowelPhrase lower then setFilterContainsCharacter st 'a' else st
  let st5 := match matchContainsKw kwLetter lower with
    | some c => setFilterContainsCharacter st4 c
    | none => st4
  match matchContainsKw kwCharacter lower with
  | some c => setFilterContainsCharacter st5 c
  | none => st5

/-- The six phrase rules of `parseNaturalLanguageQuery`, applied in program
order to the lowered query. -/
def runRules (lower : List Char) : ParseState :=
  runCCRules (runLengthRules lower) lower

/-- The parse outcome (the code carries fixed message strings with the
`conflict` and `unparsed` variants; they are constants and omitted). -/
inductive NaturalLanguageParseResult where
  | success (filters : QueryFilters) : NaturalLanguageParseResult
  | conflict : NaturalLanguageParseResult
  | unparsed : NaturalLanguageParseResult
deriving DecidableEq

/-- Whether the accumulated filters set both bounds with
`min_length > max_length` (the parser's post-check). -/
def minMaxViolB (f : QueryFilters) : Bool :=
  match f.min_length, f.max_length with
  | some mn, some mx => decide (mx < mn)
  | _, _ => false

/-- The lowered trimmed query the parser scans. -/
def nlLower (query : List Char) : List Char := (jsTrim query).map jsToLower

/-- The route's `parseNaturalLanguageQuery`. -/
def parseNaturalLanguageQuery (query : List Char) : NaturalLanguageParseResult :=
  if jsTrim query = [] then .unparsed
  else if (runRules (nlLower query)).conflicts ≠ [] then .conflict
  else if minMaxViolB (runRules (nlLower query)).filters then .conflict
  else if !(runRules (nlLower query)).parsed then .unparsed
  else .success (runRules (nlLower query)).filters

example : parseNaturalLanguageQuery ("single word palindromic strings".toList) =
    .success { word_count := some 1, is_palindrome := some true } := by decide
example : parseNaturalLanguageQuery ("strings longer than 10".toList) =
    .success { min_length := some 11 } := by decide
example : parseNaturalLanguageQuery ("asdkjasd".toList) = .unparsed := by decide
example : parseNaturalLanguageQuery ("   ".toList) = .unparsed := by decide
example : parseNaturalLanguageQuery
    ("strings containing the letter b with first vowel".toList) = .conflict := by decide
example : parseNaturalLanguageQuery ("words containing the character z".toList) =
    .success { contains_character := some 'z' } := by decide

/-! ## The content store: insert, the write-level constraints, the list route

The store is the `strings` table (schema `src/db/schema.sql`): `id` is the
PRIMARY KEY and `value` carries a UNIQUE constraint, so a write into it
fails exactly when a stored row already has the same id or the same value.
The table is modelled as a list of records. -/

/-- The outcome of an insert attempt. -/
inductive InsertResult where
  | created (record : StoredStringRecord) (store : List StoredStringRecord) : InsertResult
  | conflict : InsertResult

/-- The record the POST handler builds and persists:
`{id: sha256_hash, value, properties, created_at}`. -/
def mkInsertRecord (value : List Char) (now : List Char) : StoredStringRecord :=
  let properties := computeStringProperties value
  { id := properties.sha256_hash, value := value, properties := properties
    created_at := now }

/-- The POST handler's logic: the duplicate pre-check
(`SELECT id FROM strings WHERE id = ? OR value = ? LIMIT 1`) answers 409
Conflict; otherwise the new record is inserted and returned with 201. -/
def insertString (store : List StoredStringRecord) (value : List Char) (now : List Char) :
    InsertResult :=
  let record := mkInsertRecord value now
  if store.any (fun r => r.id == record.id || r.value == value) then .conflict
  else .created record (store ++ [record])

/-- A write into the `strings` table under its schema constraints
(PRIMARY KEY on `id`, UNIQUE on `value`): the write itself fails on any
stored row with the same id or value, else the row is appended. -/
def dbWrite (store : List StoredStringRecord) (record : StoredStringRecord) : InsertResult :=
  if store.any (fun r => r.id == record.id || r.value == record.value) then .conflict
  else .created record (store ++ [record])

/-- No two stored records share an id or a value. -/
def UniqueStore (store : List StoredStringRecord) : Prop :=
  store.Pairwise (fun a b => a.id ≠ b.id ∧ a.value ≠ b.value)

/-- The outcome of the GET list route. -/
inductive ListOutcome where
  | ok (records : List StoredStringRecord) : ListOutcome
  | validationError : ListOutcome

/-- The GET list handler after schema validation: reject with a 400
validation error when both bounds are present and `min_length > max_length`,
else list through `fetchRecords`. -/
def listStringsRoute (rows : List StoredStringRow) (filters : QueryFilters) : ListOutcome :=
  if minMaxViolB filters then .validationError
  else .ok (fetchRecords rows filters)

/-! ## Claim C2: the palindrome predicate -/

/-- The normalized form in the words of the specification: lower-cased,
diacritics removed by Unicode decomposition, every character that is not an
ASCII letter or digit stripped. -/
def specNormalize (v : List Char) : List Char :=
  ((v.map jsToLower).flatMap nfdChar).filter isAsciiAlnumChar

/-- An ASCII letter or digit is not a combining mark. -/
lemma not_combining_of_alnum {c : Char} (h : isAsciiAlnumChar c = true) :
    isCombiningMark c = false := by
  simp only [isAsciiAlnumChar, decide_eq_true_eq] at h
  simp only [isCombiningMark, decide_eq_false_iff_not]
  omega

/-- The route's normalization equals the specification's: removing the
combining-mark block before stripping to ASCII alphanumerics changes
nothing, because no combining mark is an ASCII alphanumeric. -/
lemma normalizeForPalindrome_eq_specNormalize (v : List Char) :
    normalizeForPalindrome v = specNormalize v := by
  unfold normalizeForPalindrome specNormalize
  rw [List.filter_filter]
  apply List.filter_congr
  intro c _
  cases ha : isAsciiAlnumChar c
  · simp
  · simp [not_combining_of_alnum ha]

/-- C2: for every input value, `computeStringProperties` reports
`is_palindrome` exactly when the normalized form of the value (lower-cased,
decomposed to remove diacritics, stripped to ASCII letters and digits) is
non-empty and equal to its own reversal; in particular
`"A man, a plan, a canal: Panama"` is a palindrome while `"hello"` and a
value of punctuation only are not. -/
theorem claim_C2 :
    (∀ v : List Char,
      (computeStringProperties v).is_palindrome = true ↔
        (specNormalize v ≠ [] ∧ specNormalize v = (specNormalize v).reverse)) ∧
    (computeStringProperties ("A man, a plan, a canal: Panama".toList)).is_palindrome = true ∧
    (computeStringProperties ("hello".toList)).is_palindrome = false ∧
    (computeStringProperties ("...".toList)).is_palindrome = false := by
  refine ⟨fun v => ?_, by decide, by decide, by decide⟩
  have h : (computeStringProperties v).is_palindrome =
      (decide (0 < (specNormalize v).length) && (specNormalize v == (specNormalize v).reverse)) := by
    simp only [computeStringProperties, normalizeForPalindrome_eq_specNormalize]
  rw [h]
  simp only [Bool.and_eq_true, decide_eq_true_eq, beq_iff_eq, List.length_pos_iff_ne_nil]

/-! ## Claim C8: the derived properties -/

/-- The head a `dropWhile` exposes fails the predicate. -/
lemma dropWhile_head_not {p : Char → Bool} :
    ∀ {l : List Char} {c t}, l.dropWhile p = c :: t → p c = false := by
  intro l
  induction l with
  | nil => intro c t h; simp [List.dropWhile] at h
  | cons a l ih =>
    intro c t h
    by_cases hp : p a
    · rw [List.dropWhile_cons_of_pos hp] at h; exact ih h
    · rw [List.dropWhile_cons_of_neg hp] at h
      cases h
      simpa using hp

/-- Appending a run of non-whitespace characters: a maximal-token scan that
is mid-token ignores further non-whitespace characters. -/
lemma tokenCountAux_false_append :
    ∀ l r, (∀ c ∈ l, jsWhitespace c = false) →
      tokenCountAux false (l ++ r) = tokenCountAux false r := by
  intro l
  induction l with
  | nil => simp
  | cons a l ih =>
    intro r h
    have ha : jsWhitespace a = false := h a (by simp)
    show (if (false && !jsWhitespace a) = true then 1 else 0) +
      tokenCountAux (jsWhitespace a) (l ++ r) = tokenCountAux false r
    rw [ha]
    simpa using ih r (fun c hc => h c (by simp [hc]))

/-- A nonempty whitespace run resets the scan to token-start state. -/
lemma tokenCountAux_ws_append :
    ∀ l b r, l ≠ [] → (∀ c ∈ l, jsWhitespace c = true) →
      tokenCountAux b (l ++ r) = tokenCountAux true r := by
  intro l
  induction l with
  | nil => intro b r h; exact absurd rfl h
  | cons a l ih =>
    intro b r _ h
    have ha : jsWhitespace a = true := h a (by simp)
    show (if (b && !jsWhitespace a) = true then 1 else 0) +
      tokenCountAux (jsWhitespace a) (l ++ r) = tokenCountAux true r
    rw [ha]
    rcases l with - | ⟨d, l'⟩
    · simp
    · rw [ih true r (by simp) (fun c hc => h c (by simp [hc]))]
      simp

/-- A nonempty all-non-whitespace token at token-start state counts one
token and leaves the scan mid-token. -/
lemma tokenCountAux_token :
    ∀ l r, l ≠ [] → (∀ c ∈ l, jsWhitespace c = false) →
      tokenCountAux true (l ++ r) = 1 + tokenCountAux false r := by
  intro l r h hl
  rcases l with - | ⟨a, l'⟩
  · exact absurd rfl h
  have ha : jsWhitespace a = false := hl a (by simp)
  show (if (true && !jsWhitespace a) = true then 1 else 0) +
    tokenCountAux (jsWhitespace a) (l' ++ r) = 1 + tokenCountAux false r
  rw [ha, tokenCountAux_false_append l' r (fun c hc => hl c (by simp [hc]))]
  simp


/-- The head a `dropWhile` exposes fails the predicate (option form). -/
lemma dropWhile_headq_not {p : Char → Bool} {l : List Char} {c : Char}
    (h : (l.dropWhile p).head? = some c) : p c = false := by
  rcases hd : l.dropWhile p with - | ⟨a, t⟩
  · rw [hd] at h; simp at h
  · rw [hd] at h
    simp at h
    rw [← h]
    exact dropWhile_head_not hd

/-- On a list with no leading and no trailing whitespace, the pieces of
`split(/\s+/)` are exactly the maximal whitespace-delimited tokens. -/
lemma splitWsF_length_eq_tokenCount :
    ∀ fuel (t : List Char), t.length < fuel → t ≠ [] →
      (∀ c, t.head? = some c → jsWhitespace c = false) →
      (∀ c, t.getLast? = some c → jsWhitespace c = false) →
      (splitWsF fuel t).length = tokenCount t := by
  intro fuel
  induction fuel with
  | zero => intro t h; omega
  | succ n ih =>
    intro t hlen hne hhead hlast
    have hdec := List.takeWhile_append_dropWhile (p := fun c => !jsWhitespace c) (l := t)
    set tok := t.takeWhile (fun c => !jsWhitespace c) with htok
    set rest := t.dropWhile (fun c => !jsWhitespace c) with hrest
    have htokmem : ∀ c ∈ tok, jsWhitespace c = false := by
      intro c hc
      have := List.mem_takeWhile_imp hc
      simpa using this
    have htokne : tok ≠ [] := by
      rcases ha : t with - | ⟨a, t'⟩
      · exact absurd ha hne
      · have : jsWhitespace a = false := hhead a (by rw [ha]; rfl)
        rw [htok, ha, List.takeWhile_cons_of_pos (by simp [this])]
        simp
    rcases hr : rest with - | ⟨b, rest'⟩
    · -- no whitespace at all: one piece, one token
      have ht : t = tok := by rw [← hdec, hr, List.append_nil]
      have hstep : splitWsF (n + 1) t = [tok] := by
        simp only [splitWsF, ← htok, ← hrest, hr]
      rw [hstep, ht]
      have := tokenCountAux_token tok [] htokne htokmem
      simp only [List.append_nil] at this
      simp [tokenCount, this, tokenCountAux]
    · -- a whitespace run separates the first token from the remainder
      have hbws : jsWhitespace b = true := by
        cases hbv : jsWhitespace b
        · exfalso
          have := dropWhile_head_not (p := fun c => !jsWhitespace c) (l := t) (c := b) (t := rest')
          rw [← hrest] at this
          have := this hr
          simp [hbv] at this
        · rfl
      have hdec2 := List.takeWhile_append_dropWhile (p := jsWhitespace) (l := rest)
      set run := rest.takeWhile jsWhitespace with hrun
      set t2 := rest.dropWhile jsWhitespace with ht2
      have hrunmem : ∀ c ∈ run, jsWhitespace c = true := fun c hc => List.mem_takeWhile_imp hc
      have hrunne : run ≠ [] := by
        rw [hrun, hr, List.takeWhile_cons_of_pos hbws]
        simp
      have ht2mem : ∀ c, t2.head? = some c → jsWhitespace c = false := by
        intro c hc
        exact dropWhile_headq_not (ht2 ▸ hc)
      have hrestne : rest ≠ [] := by rw [hr]; simp
      have hlastrest : t.getLast? = rest.getLast? := by
        conv_lhs => rw [← hdec]
        exact List.getLast?_append_of_ne_nil _ hrestne
      have ht2ne : t2 ≠ [] := by
        intro h2
        have hallws : ∀ c ∈ rest, jsWhitespace c = true := by
          have : rest = run := by rw [← hdec2, h2, List.append_nil]
          rw [this]; exact hrunmem
        rcases hgl : rest.getLast? with - | d
        · rw [List.getLast?_eq_none_iff] at hgl
          exact hrestne hgl
        · have hd1 : jsWhitespace d = true := hallws d (List.mem_of_mem_getLast? hgl)
          have hd2 : jsWhitespace d = false := hlast d (by rw [hlastrest]; exact hgl)
          rw [hd1] at hd2
          cases hd2
      have ht2last : ∀ c, t2.getLast? = some c → jsWhitespace c = false := by
        intro c hc
        apply hlast
        rw [hlastrest]
        conv_lhs => rw [← hdec2]
        rw [List.getLast?_append_of_ne_nil _ ht2ne]
        exact hc
      have hlen2 : t2.length < n := by
        have e1 : tok.length + rest.length = t.length := by
          rw [← hdec]; simp
        have e2 : run.length + t2.length = rest.length := by
          rw [← hdec2]; simp
        have : 1 ≤ run.length := by
          rcases run with - | _
          · exact absurd rfl hrunne
          · simp
        omega
      have hstep : splitWsF (n + 1) t = tok :: splitWsF n t2 := by
        simp only [splitWsF, ← htok, ← hrest, hr]
        rw [← hr, ht2]
      rw [hstep]
      have ihres := ih t2 hlen2 ht2ne ht2mem ht2last
      have hcount : tokenCount t = 1 + tokenCount t2 := by
        show tokenCountAux true t = 1 + tokenCountAux true t2
        conv_lhs => rw [← hdec]
        rw [tokenCountAux_token tok rest htokne htokmem]
        conv_lhs => rw [← hdec2]
        rw [tokenCountAux_ws_append run false t2 hrunne hrunmem]
      simp only [List.length_cons, ihres, hcount]
      omega

/-- The head of a nonempty trim result is not whitespace. -/
lemma jsTrim_headq_not {v : List Char} {c : Char} (h : (jsTrim v).head? = some c) :
    jsWhitespace c = false := by
  have hdec := List.takeWhile_append_dropWhile (p := jsWhitespace)
    (l := (v.dropWhile jsWhitespace).reverse)
  have ha : v.dropWhile jsWhitespace = jsTrim v ++
      ((v.dropWhile jsWhitespace).reverse.takeWhile jsWhitespace).reverse := by
    unfold jsTrim
    rw [← List.reverse_append, hdec, List.reverse_reverse]
  rcases he : jsTrim v with - | ⟨e, etl⟩
  · rw [he] at h; simp at h
  · rw [he] at h
    simp at h
    rw [he] at ha
    apply dropWhile_headq_not (p := jsWhitespace) (l := v)
    rw [ha, ← h]
    rfl

/-- The last of a nonempty trim result is not whitespace. -/
lemma jsTrim_getLastq_not {v : List Char} {c : Char} (h : (jsTrim v).getLast? = some c) :
    jsWhitespace c = false := by
  have : (jsTrim v).getLast? =
      ((v.dropWhile jsWhitespace).reverse.dropWhile jsWhitespace).head? := by
    unfold jsTrim
    exact List.getLast?_reverse _
  rw [this] at h
  exact dropWhile_headq_not h

/-- The route's word count equals the number of maximal whitespace-delimited
tokens of the trimmed value. -/
lemma calculateWordCount_eq_tokenCount (v : List Char) :
    calculateWordCount v = tokenCount (jsTrim v) := by
  unfold calculateWordCount
  rcases ht : jsTrim v with - | ⟨c, t'⟩
  · simp [tokenCount, tokenCountAux]
  · rw [← ht]
    have hne : jsTrim v ≠ [] := by rw [ht]; simp
    have hlen : ¬ (jsTrim v).length = 0 := by rw [ht]; simp
    simp only [if_neg hlen]
    exact splitWsF_length_eq_tokenCount _ _ (by omega) hne
      (fun c hc => jsTrim_headq_not hc) (fun c hc => jsTrim_getLastq_not hc)

/-- A whitespace-only value trims to the empty list. -/
lemma jsTrim_eq_nil_of_all_ws {v : List Char} (h : ∀ c ∈ v, jsWhitespace c = true) :
    jsTrim v = [] := by
  have h1 : v.dropWhile jsWhitespace = [] := by
    rw [List.dropWhile_eq_nil_iff]
    exact fun x hx => h x hx
  unfold jsTrim
  rw [h1]
  rfl

/-- Look a character's count up in a frequency association list. -/
def freqGet : List (Char × Nat) → Char → Nat
  | [], _ => 0
  | (k, v) :: rest, c => if k = c then v else freqGet rest c

/-- Look a character's count up in the JSON frequency object (`0` for a
missing key or a non-numeric value, and for any non-object). -/
def freqCountAux : List (List Char × Json) → Char → Nat
  | [], _ => 0
  | (k, v) :: rest, c =>
    if k = [c] then (match v with | Json.num n => n.toNat | _ => 0)
    else freqCountAux rest c

def freqCount : Json → Char → Nat
  | Json.obj kvs, c => freqCountAux kvs c
  | _, _ => 0


/-- Bumping one character raises exactly its own count by one. -/
lemma freqGet_bumpChar : ∀ (m : List (Char × Nat)) (a c : Char),
    freqGet (bumpChar m a) c = freqGet m c + (if a = c then 1 else 0) := by
  intro m
  induction m with
  | nil =>
    intro a c
    by_cases hac : a = c <;> simp [bumpChar, freqGet, hac]
  | cons kv rest ih =>
    intro a c
    obtain ⟨k, v⟩ := kv
    by_cases hka : k = a
    · subst hka
      by_cases hkc : k = c
      · subst hkc
        simp [bumpChar, freqGet]
      · simp [bumpChar, freqGet, hkc]
    · by_cases hkc : k = c
      · subst hkc
        have hac : ¬ a = k := fun h => hka h.symm
        simp [bumpChar, freqGet, hka, hac]
      · simp [bumpChar, freqGet, hka, hkc, ih]

/-- The frequency fold tallies every character of the input. -/
lemma freqGet_foldl : ∀ (l : List Char) (m : List (Char × Nat)) (c : Char),
    freqGet (l.foldl bumpChar m) c = freqGet m c + l.count c := by
  intro l
  induction l with
  | nil => simp
  | cons a l ih =>
    intro m c
    rw [List.foldl_cons, ih, freqGet_bumpChar, List.count_cons]
    by_cases h : a = c
    · subst h
      simp
      omega
    · have h2 : ¬ c = a := fun hh => h hh.symm
      simp [h, h2]

/-- Reading the JSON rendering of a frequency association list agrees with
reading the list itself. -/
lemma freqCount_freqMapToJson : ∀ (m : List (Char × Nat)) (c : Char),
    freqCount (freqMapToJson m) c = freqGet m c := by
  intro m c
  show freqCountAux (m.map fun p => ([p.1], Json.num (Int.ofNat p.2))) c = freqGet m c
  induction m with
  | nil => simp [freqCountAux, freqGet]
  | cons kv rest ih =>
    obtain ⟨k, v⟩ := kv
    by_cases hkc : k = c
    · subst hkc
      simp [freqCountAux, freqGet]
    · have hne : ¬ ([k] : List Char) = [c] := by simp [hkc]
      simp only [List.map_cons, freqCountAux, freqGet, if_neg hne, if_neg hkc]
      exact ih

/-- C8: `computeStringProperties` (a pure function, hence deterministic)
returns the code-point length of the raw value, the case-sensitive count of
its distinct code points, the number of maximal whitespace-delimited tokens
of its trim (`0` for a whitespace-only value), a frequency map tallying
every code point of the raw value (whitespace and punctuation included),
and the hex-encoded SHA-256 digest of the UTF-8 bytes of the raw value as
the content hash; `"one two  three"` has three words and `"Aa"` two unique
characters. -/
theorem claim_C8 :
    (∀ v : List Char,
      (computeStringProperties v).length = v.length ∧
      (computeStringProperties v).unique_characters = v.toFinset.card ∧
      (computeStringProperties v).word_count = tokenCount (jsTrim v) ∧
      ((∀ c ∈ v, jsWhitespace c = true) → (computeStringProperties v).word_count = 0) ∧
      (∀ c : Char, freqCount (computeStringProperties v).character_frequency_map c =
        v.count c) ∧
      (computeStringProperties v).sha256_hash = toHex (sha256 (utf8Encode v))) ∧
    (computeStringProperties ("one two  three".toList)).word_count = 3 ∧
    (computeStringProperties ("Aa".toList)).unique_characters = 2 ∧
    (computeStringProperties ("   ".toList)).word_count = 0 := by
  refine ⟨fun v => ⟨rfl, ?_, ?_, ?_, ?_, rfl⟩, by decide, by decide, by decide⟩
  · show v.dedup.length = v.toFinset.card
    exact (List.card_toFinset v).symm
  · exact calculateWordCount_eq_tokenCount v
  · intro hws
    show calculateWordCount v = 0
    rw [calculateWordCount_eq_tokenCount, jsTrim_eq_nil_of_all_ws hws]
    rfl
  · intro c
    show freqCount (freqMapToJson (buildCharacterFrequencyMap v)) c = v.count c
    rw [freqCount_freqMapToJson]
    show freqGet (v.foldl bumpChar []) c = v.count c
    rw [freqGet_foldl]
    show freqGet [] c + v.count c = v.count c
    simp [freqGet]

/-! ## Claim C9: tolerant reads of the frequency-map column -/

/-- Whether a stored text is a valid JSON encoding of a map from
single-character strings to integer counts (the shape the insert writes). -/
def validFreqMapText (raw : List Char) : Bool :=
  match jsonParse raw with
  | some (Json.obj kvs) =>
    kvs.all (fun kv => kv.1.length == 1 &&
      (match kv.2 with | Json.num _ => true | _ => false))
  | _ => false

/-- C9 (amended): reading a record back never fails on the frequency-map
field — when the stored text does not parse as JSON, or parses to `null` or
a non-object primitive, `mapRowToRecord` substitutes the empty map; but a
parse to any truthy `typeof "object"` value (an array, or an object that is
not a map from single-character strings to integer counts) is kept as-is. -/
theorem claim_C9 :
    ∀ row : StoredStringRow,
      (jsonParse row.character_frequency_map = none →
        (mapRowToRecord row).properties.character_frequency_map = Json.obj []) ∧
      (∀ v, jsonParse row.character_frequency_map = some v → jsTruthyObject v = false →
        (mapRowToRecord row).properties.character_frequency_map = Json.obj []) ∧
      (∀ v, jsonParse row.character_frequency_map = some v → jsTruthyObject v = true →
        (mapRowToRecord row).properties.character_frequency_map = v) := by
  intro row
  refine ⟨fun h => ?_, fun v h ht => ?_, fun v h ht => ?_⟩
  · show parseFrequencyMap row.character_frequency_map = _
    unfold parseFrequencyMap
    rw [h]
  · show parseFrequencyMap row.character_frequency_map = _
    unfold parseFrequencyMap
    rw [h]
    simp only [ht]
    rfl
  · show parseFrequencyMap row.character_frequency_map = _
    unfold parseFrequencyMap
    rw [h]
    simp only [ht]
    rfl

/-- C9 counterexample to the claim as stated: the stored text `[1,2,3]` is
not a valid JSON encoding of a single-character-to-count map, yet the read
record keeps the parsed array instead of the empty map. -/
theorem claim_C9_counterexample :
    validFreqMapText ("[1,2,3]".toList) = false ∧
    (mapRowToRecord ⟨"i".toList, "a".toList, 1, 0, 1, 1, "[1,2,3]".toList,
      "t".toList⟩).properties.character_frequency_map =
        Json.arr [Json.num 1, Json.num 2, Json.num 3] ∧
    Json.arr [Json.num 1, Json.num 2, Json.num 3] ≠ Json.obj [] := by
  refine ⟨rfl, rfl, fun h => ?_⟩
  exact Json.noConfusion h

/-! ## Claims C3 and C4: insert conflicts and write-level uniqueness -/

/-- C3: `insert(value)` fails with Conflict exactly when a stored record
already carries the same id (the value's content hash) or the same value;
on success it returns the new `{id, value, properties, created_at}` record
and the store afterwards is the old store plus that record. -/
theorem claim_C3 :
    ∀ (store : List StoredStringRecord) (value now : List Char),
      (insertString store value now = .conflict ↔
        ∃ r ∈ store, r.id = (computeStringProperties value).sha256_hash ∨ r.value = value) ∧
      (∀ rec st', insertString store value now = .created rec st' →
        rec.id = (computeStringProperties value).sha256_hash ∧
        rec.value = value ∧
        rec.properties = computeStringProperties value ∧
        rec.created_at = now ∧
        st' = store ++ [rec] ∧ rec ∈ st') := by
  intro store value now
  have hpre : (store.any (fun r =>
      r.id == (mkInsertRecord value now).id || r.value == value)) = true ↔
      ∃ r ∈ store, r.id = (computeStringProperties value).sha256_hash ∨ r.value = value := by
    rw [List.any_eq_true]
    constructor
    · rintro ⟨r, hr, hor⟩
      refine ⟨r, hr, ?_⟩
      rcases Bool.or_eq_true_iff.mp hor with h | h
      · exact Or.inl (by simpa [mkInsertRecord] using (beq_iff_eq.mp h))
      · exact Or.inr (beq_iff_eq.mp h)
    · rintro ⟨r, hr, hor⟩
      refine ⟨r, hr, ?_⟩
      rcases hor with h | h
      · exact Bool.or_eq_true_iff.mpr (Or.inl (beq_iff_eq.mpr (by simpa [mkInsertRecord] using h)))
      · exact Bool.or_eq_true_iff.mpr (Or.inr (beq_iff_eq.mpr h))
  constructor
  · constructor
    · intro h
      by_contra hno
      rw [← hpre] at hno
      unfold insertString at h
      simp only [Bool.not_eq_true] at hno
      rw [if_neg (by simp [hno])] at h
      exact InsertResult.noConfusion h
    · intro hex
      unfold insertString
      rw [if_pos (hpre.mpr hex)]
  · intro rec st' h
    unfold insertString at h
    by_cases hc : (store.any (fun r =>
        r.id == (mkInsertRecord value now).id || r.value == value)) = true
    · rw [if_pos hc] at h
      exact InsertResult.noConfusion h
    · rw [if_neg hc] at h
      injection h with h1 h2
      subst h1
      subst h2
      refine ⟨rfl, rfl, rfl, rfl, rfl, by simp [mkInsertRecord]⟩

/-- The id of the record the POST handler builds is the value's content
hash, and its value is the raw value. -/
lemma mkInsertRecord_id (v now : List Char) :
    (mkInsertRecord v now).id = (computeStringProperties v).sha256_hash := rfl

lemma mkInsertRecord_value (v now : List Char) : (mkInsertRecord v now).value = v := rfl

/-- C4: when two concurrent inserts of the same value both pass the
duplicate pre-check over a store holding neither the value nor its hash,
the uniqueness constraints of the `strings` schema, enforced at the write,
let exactly the first write through in either write order: the first write
succeeds, the second observes Conflict, the store keeps exactly one record
with the value, and store-wide uniqueness of ids and values is preserved. -/
theorem claim_C4 :
    ∀ (store : List StoredStringRecord) (v t₁ t₂ : List Char),
      (∀ r ∈ store, r.id ≠ (computeStringProperties v).sha256_hash ∧ r.value ≠ v) →
      (dbWrite store (mkInsertRecord v t₁) =
          .created (mkInsertRecord v t₁) (store ++ [mkInsertRecord v t₁]) ∧
        dbWrite (store ++ [mkInsertRecord v t₁]) (mkInsertRecord v t₂) = .conflict) ∧
      (dbWrite store (mkInsertRecord v t₂) =
          .created (mkInsertRecord v t₂) (store ++ [mkInsertRecord v t₂]) ∧
        dbWrite (store ++ [mkInsertRecord v t₂]) (mkInsertRecord v t₁) = .conflict) ∧
      (UniqueStore store → UniqueStore (store ++ [mkInsertRecord v t₁])) ∧
      (store ++ [mkInsertRecord v t₁]).countP (fun r => r.value == v) = 1 := by
  intro store v t₁ t₂ hpre
  have hany : ∀ tw : List Char, (store.any (fun r =>
      r.id == (mkInsertRecord v tw).id || r.value == (mkInsertRecord v tw).value)) = false := by
    intro tw
    rw [List.any_eq_false]
    intro r hr
    obtain ⟨h1, h2⟩ := hpre r hr
    simp [mkInsertRecord_id, mkInsertRecord_value, h1, h2]
  have hsecond : ∀ ta tb : List Char,
      dbWrite (store ++ [mkInsertRecord v ta]) (mkInsertRecord v tb) = .conflict := by
    intro ta tb
    unfold dbWrite
    rw [if_pos]
    rw [List.any_eq_true]
    refine ⟨mkInsertRecord v ta, by simp, ?_⟩
    simp [mkInsertRecord_id, mkInsertRecord_value]
  have hfirst : ∀ tw : List Char, dbWrite store (mkInsertRecord v tw) =
      .created (mkInsertRecord v tw) (store ++ [mkInsertRecord v tw]) := by
    intro tw
    unfold dbWrite
    rw [if_neg (by simp [hany tw])]
  refine ⟨⟨hfirst t₁, hsecond t₁ t₂⟩, ⟨hfirst t₂, hsecond t₂ t₁⟩, ?_, ?_⟩
  · intro hu
    unfold UniqueStore
    rw [List.pairwise_append]
    refine ⟨hu, by simp, ?_⟩
    intro a ha b hb
    simp only [List.mem_singleton] at hb
    subst hb
    obtain ⟨h1, h2⟩ := hpre a ha
    exact ⟨by rwa [mkInsertRecord_id], by rwa [mkInsertRecord_value]⟩
  · rw [List.countP_append]
    have h0 : store.countP (fun r => r.value == v) = 0 := by
      rw [List.countP_eq_zero]
      intro r hr
      simp [(hpre r hr).2]
    rw [h0]
    simp [mkInsertRecord_value]

/-- Witness for C4 at the empty store and the value `"race"`: both write
orders let exactly one writer through. -/
theorem claim_C4_witness :
    (dbWrite [] (mkInsertRecord ("race".toList) ("t1".toList)) =
        .created (mkInsertRecord ("race".toList) ("t1".toList))
          ([] ++ [mkInsertRecord ("race".toList) ("t1".toList)]) ∧
      dbWrite ([] ++ [mkInsertRecord ("race".toList) ("t1".toList)])
          (mkInsertRecord ("race".toList) ("t2".toList)) = .conflict) ∧
    (dbWrite [] (mkInsertRecord ("race".toList) ("t2".toList)) =
        .created (mkInsertRecord ("race".toList) ("t2".toList))
          ([] ++ [mkInsertRecord ("race".toList) ("t2".toList)]) ∧
      dbWrite ([] ++ [mkInsertRecord ("race".toList) ("t2".toList)])
          (mkInsertRecord ("race".toList) ("t1".toList)) = .conflict) ∧
    (UniqueStore [] → UniqueStore ([] ++ [mkInsertRecord ("race".toList) ("t1".toList)])) ∧
    ([] ++ [mkInsertRecord ("race".toList) ("t1".toList)]).countP
      (fun r : StoredStringRecord => r.value == "race".toList) = 1 :=
  claim_C4 [] ("race".toList) ("t1".toList) ("t2".toList) (by simp)

/-! ## Claim C1: the SQL pass against the in-memory pass -/

/-- `Char.ofNat` below the surrogate range reads back as itself. -/
lemma toNat_ofNat_lt {n : Nat} (h : n < 0xd800) : (Char.ofNat n).toNat = n := by
  unfold Char.ofNat
  split
  · rfl
  · rename_i hc
    exact absurd (Or.inl h) hc

/-- ASCII lowering is idempotent. -/
lemma sqliteLower_idem (c : Char) : sqliteLower (sqliteLower c) = sqliteLower c := by
  unfold sqliteLower
  by_cases h : 65 ≤ c.toNat ∧ c.toNat ≤ 90
  · rw [if_pos h]
    have ht : (Char.ofNat (c.toNat + 32)).toNat = c.toNat + 32 := toNat_ofNat_lt (by omega)
    rw [if_neg (by rw [ht]; omega)]
  · rw [if_neg h, if_neg h]

/-- A `LIKE` pattern that is a single `%` matches everything (with two spare
units of fuel). -/
lemma likeMatchF_wild : ∀ (s : List Char) (fuel : Nat), s.length + 2 ≤ fuel →
    likeMatchF fuel ['%'] s = true := by
  intro s
  induction s with
  | nil =>
    intro fuel h
    rcases fuel with - | ⟨- | f⟩
    · omega
    · omega
    · rfl
  | cons b t ih =>
    intro fuel h
    rcases fuel with - | f
    · omega
    · show (likeMatchF f [] (b :: t) || likeMatchF f ['%'] t) = true
      rw [ih f (by simp at h ⊢; omega)]
      simp

/-- A `LIKE` pattern `%c%` whose `c` is no wildcard asks exactly for an
occurrence of `c` in the string, up to ASCII case folding. -/
lemma likeMatchF_pct_char_pct : ∀ (s : List Char) (fuel : Nat) (c : Char),
    s.length + 4 ≤ fuel → c ≠ '%' → c ≠ '_' →
    likeMatchF fuel ['%', c, '%'] s = s.any (fun d => sqliteLower c == sqliteLower d) := by
  intro s
  induction s with
  | nil =>
    intro fuel c h h1 h2
    rcases fuel with - | ⟨- | f⟩
    · omega
    · omega
    · show (likeMatchF (f + 1) [c, '%'] [] || false) = List.any [] _
      show ((if c = '%' then _ else if c = '_' then _ else (false : Bool)) || false) = _
      rw [if_neg h1, if_neg h2]
      rfl
  | cons b t ih =>
    intro fuel c h h1 h2
    rcases fuel with - | ⟨- | f⟩
    · omega
    · omega
    · show (likeMatchF (f + 1) [c, '%'] (b :: t) ||
        likeMatchF (f + 1) ['%', c, '%'] t) = _
      have hfirst : likeMatchF (f + 1) [c, '%'] (b :: t) =
          (sqliteLower c == sqliteLower b) := by
        show (if c = '%' then _ else if c = '_' then _
          else ((sqliteLower c == sqliteLower b) && likeMatchF f ['%'] t : Bool)) = _
        rw [if_neg h1, if_neg h2, likeMatchF_wild t f (by simp at h ⊢; omega)]
        simp
      rw [hfirst, ih (f + 1) c (by simp at h ⊢; omega) h1 h2]
      simp [List.any_cons]

/-- A single-character needle occurs as a substring exactly when it occurs
as an element. -/
lemma containsSub_single (a : Char) : ∀ l : List Char,
    containsSub [a] l = l.any (fun d => a == d) := by
  intro l
  induction l with
  | nil => rfl
  | cons c t ih =>
    show (List.isPrefixOf [a] (c :: t) || containsSub [a] t) = _
    rw [ih]
    show ((a == c && List.isPrefixOf [] t) || t.any (fun d => a == d)) = _
    simp [List.isPrefixOf, List.any_cons]

/-- The early-return chain of `applyFilters`, flattened to a conjunction of
the five per-filter rejections. -/
lemma recordMatchesFilters_as_and (f : QueryFilters) (r : StoredStringRecord) :
    recordMatchesFilters f r =
      (!(f.is_palindrome.elim false (fun b => r.properties.is_palindrome != b)) &&
       !(f.min_length.elim false (fun m => decide (r.properties.length < m))) &&
       !(f.max_length.elim false (fun m => decide (m < r.properties.length))) &&
       !(f.word_count.elim false (fun w => r.properties.word_count != w)) &&
       !(f.contains_character.elim false
          (fun ch => !containsSub [jsToLower ch] (r.value.map jsToLower)))) := by
  unfold recordMatchesFilters
  generalize (f.is_palindrome.elim false fun b => r.properties.is_palindrome != b) = c1
  generalize (f.min_length.elim false fun m => decide (r.properties.length < m)) = c2
  generalize (f.max_length.elim false fun m => decide (m < r.properties.length)) = c3
  generalize (f.word_count.elim false fun w => r.properties.word_count != w) = c4
  generalize (f.contains_character.elim false
    fun ch => !containsSub [jsToLower ch] (r.value.map jsToLower)) = c5
  cases c1 <;> cases c2 <;> cases c3 <;> cases c4 <;> cases c5 <;> rfl

/-- Congruence of `List.any` for predicates agreeing on members. -/
lemma any_congr_mem {α : Type} {l : List α} {p q : α → Bool} (h : ∀ a ∈ l, p a = q a) :
    l.any p = l.any q := by
  induction l with
  | nil => rfl
  | cons a t ih =>
    simp only [List.any_cons]
    rw [h a (by simp), ih (fun b hb => h b (by simp [hb]))]

/-- C1 (amended): the `WHERE` conditions of `fetchRecords` select a row
exactly when `applyFilters` keeps its mapped record, provided the
`contains_character` filter, when present, lowers to a character other than
the `LIKE` wildcards `%` and `_`, that lowered character is already
ASCII-lower-fixed, and JavaScript and SQLite lowering agree on the row's
value (all of which hold for ASCII values and filter characters).  Every
other filter is equivalent unconditionally, given that the stored
`is_palindrome` column holds `0` or `1` as the insert writes it. -/
theorem claim_C1 (row : StoredStringRow) (filters : QueryFilters)
    (hpal : row.is_palindrome = 0 ∨ row.is_palindrome = 1)
    (hcc : ∀ ch, filters.contains_character = some ch →
      jsToLower ch ≠ '%' ∧ jsToLower ch ≠ '_' ∧
      sqliteLower (jsToLower ch) = jsToLower ch ∧
      ∀ d ∈ row.value, jsToLower d = sqliteLower d) :
    fetchRecordsWhere filters row = recordMatchesFilters filters (mapRowToRecord row) := by
  rw [recordMatchesFilters_as_and]
  unfold fetchRecordsWhere
  have e1 : filters.is_palindrome.elim true
      (fun b => row.is_palindrome == (if b then 1 else 0)) =
      !(filters.is_palindrome.elim false
        (fun b => (mapRowToRecord row).properties.is_palindrome != b)) := by
    rcases filters.is_palindrome with - | b
    · rfl
    · show (row.is_palindrome == (if b then 1 else 0)) =
        !(decide (row.is_palindrome ≠ 0) != b)
      rcases hpal with h | h <;> rw [h] <;> cases b <;> rfl
  have e2 : filters.min_length.elim true (fun m => decide (m ≤ row.length)) =
      !(filters.min_length.elim false
        (fun m => decide ((mapRowToRecord row).properties.length < m))) := by
    rcases filters.min_length with - | m
    · rfl
    · show decide (m ≤ row.length) = !(decide (row.length < m))
      rw [← decide_not]
      simp [Nat.not_lt]
  have e3 : filters.max_length.elim true (fun m => decide (row.length ≤ m)) =
      !(filters.max_length.elim false
        (fun m => decide (m < (mapRowToRecord row).properties.length))) := by
    rcases filters.max_length with - | m
    · rfl
    · show decide (row.length ≤ m) = !(decide (m < row.length))
      rw [← decide_not]
      simp [Nat.not_lt]
  have e4 : filters.word_count.elim true (fun w => row.word_count == w) =
      !(filters.word_count.elim false
        (fun w => (mapRowToRecord row).properties.word_count != w)) := by
    rcases filters.word_count with - | w
    · rfl
    · show (row.word_count == w) = !(row.word_count != w)
      simp [bne]
  have e5 : filters.contains_character.elim true
      (fun ch => likeMatch ('%' :: jsToLower ch :: ['%']) (row.value.map sqliteLower)) =
      !(filters.contains_character.elim false
        (fun ch => !containsSub [jsToLower ch] ((mapRowToRecord row).value.map jsToLower))) := by
    rcases hc : filters.contains_character with - | ch
    · rfl
    · obtain ⟨hw1, hw2, hfix, hagree⟩ := hcc ch hc
      show likeMatch ('%' :: jsToLower ch :: ['%']) (row.value.map sqliteLower) =
        !(!containsSub [jsToLower ch] (row.value.map jsToLower))
      rw [Bool.not_not]
      rw [likeMatch]
      rw [likeMatchF_pct_char_pct _ _ _
        (by simp only [List.length_cons, List.length_map, List.length_nil]; omega) hw1 hw2]
      rw [containsSub_single, List.any_map, List.any_map, hfix]
      exact any_congr_mem (fun d hd => by
        simp only [Function.comp]
        rw [sqliteLower_idem, ← hagree d hd])
  rw [e1, e2, e3, e4, e5]

/-- C1 counterexample to the claim as stated: with
`contains_character = '%'` the bound `LIKE` pattern is `%%%`, which matches
every value, while the in-memory pass looks for a literal `%`; on a stored
`"a"` the SQL pass selects the record and `applyFilters` drops it. -/
theorem claim_C1_counterexample :
    fetchRecords [⟨"i".toList, "a".toList, 1, 0, 1, 1, "x".toList, "t".toList⟩]
        { contains_character := some '%' } =
      [mapRowToRecord ⟨"i".toList, "a".toList, 1, 0, 1, 1, "x".toList, "t".toList⟩] ∧
    applyFilters [mapRowToRecord ⟨"i".toList, "a".toList, 1, 0, 1, 1, "x".toList, "t".toList⟩]
        { contains_character := some '%' } = [] :=
  ⟨rfl, rfl⟩

/-- Witness for C1 at an ASCII record and filter: value `"Cat"`, filter
character `'A'`; both passes agree. -/
theorem claim_C1_witness :
    fetchRecordsWhere { contains_character := some 'A' }
        ⟨"i".toList, "Cat".toList, 3, 0, 3, 1, "x".toList, "t".toList⟩ =
      recordMatchesFilters { contains_character := some 'A' }
        (mapRowToRecord ⟨"i".toList, "Cat".toList, 3, 0, 3, 1, "x".toList, "t".toList⟩) :=
  claim_C1 ⟨"i".toList, "Cat".toList, 3, 0, 3, 1, "x".toList, "t".toList⟩
    { contains_character := some 'A' }
    (Or.inl rfl)
    (fun ch hch => by
      cases hch
      exact ⟨by decide, by decide, by decide, by decide⟩)

/-! ## Claims C5, C6, C7, C10: the parser's contract -/

/-- The `contains_character` assignments the three character rules produce,
in program order: `'a'` for `first vowel`, then the captures of the
`letter` and `character` regexes. -/
def ccAssigns (lower : List Char) : List Char :=
  (if hasFirstVowelPhrase lower then ['a'] else []) ++
    (matchContainsKw kwLetter lower).toList ++
    (matchContainsKw kwCharacter lower).toList

/-- Whether any of the six phrase rules recognizes something in the lowered
query. -/
def anyPhraseRecognized (lower : List Char) : Bool :=
  hasSingleWordPhrase lower || hasPalindromePhrase lower ||
    (matchLongerThan lower).isSome || hasFirstVowelPhrase lower ||
    (matchContainsKw kwLetter lower).isSome ||
    (matchContainsKw kwCharacter lower).isSome

/-- The state after the three length-ish rules: the three fields are set
exactly by their phrases, no conflict is possible, and `parsed` records
whether any of the three fired. -/
lemma runLengthRules_spec (lower : List Char) :
    runLengthRules lower =
      ⟨{ is_palindrome := if hasPalindromePhrase lower then some true else none
         min_length := (matchLongerThan lower).map (· + 1)
         max_length := none
         word_count := if hasSingleWordPhrase lower then some 1 else none
         contains_character := none },
       [],
       hasSingleWordPhrase lower || hasPalindromePhrase lower ||
         (matchLongerThan lower).isSome⟩ := by
  cases hsw : hasSingleWordPhrase lower <;>
    cases hpal : hasPalindromePhrase lower <;>
      cases hlt : matchLongerThan lower <;>
        simp [runLengthRules, hsw, hpal, hlt, setFilterWordCount, setFilterIsPalindrome,
          setFilterMinLength]

/-- Whether all `contains_character` assignments agree with the first (how
the parser's `setFilter` detects conflicts). -/
def ccAgree (lower : List Char) : Bool :=
  match ccAssigns lower with
  | [] => true
  | a :: t => t.all (fun b => a == b)

/-- The state after the three `contains_character` rules, from any state
with the field unset and no conflicts: the other fields survive untouched,
the field ends at the first assignment, the conflict list stays empty
exactly when every assignment agrees with the first, and `parsed` records
whether any rule fired. -/
lemma runCCRules_spec (st : ParseState) (lower : List Char)
    (hcc : st.filters.contains_character = none) (hcf : st.conflicts = []) :
    (runCCRules st lower).filters.is_palindrome = st.filters.is_palindrome ∧
    (runCCRules st lower).filters.min_length = st.filters.min_length ∧
    (runCCRules st lower).filters.max_length = st.filters.max_length ∧
    (runCCRules st lower).filters.word_count = st.filters.word_count ∧
    (runCCRules st lower).filters.contains_character = (ccAssigns lower).head? ∧
    (runCCRules st lower).conflicts.isEmpty = ccAgree lower ∧
    (runCCRules st lower).parsed =
      (st.parsed || (hasFirstVowelPhrase lower ||
        (matchContainsKw kwLetter lower).isSome ||
        (matchContainsKw kwCharacter lower).isSome)) := by
  rcases st with ⟨⟨f1, f2, f3, f4, f5⟩, cf, pd⟩
  simp only at hcc hcf
  subst hcc
  subst hcf
  unfold runCCRules ccAgree ccAssigns
  cases hfv : hasFirstVowelPhrase lower <;>
    cases hlet : matchContainsKw kwLetter lower <;>
      cases hchar : matchContainsKw kwCharacter lower
  · simp [setFilterContainsCharacter]
  · simp [setFilterContainsCharacter]
  · simp [setFilterContainsCharacter]
  · rename_i c c'
    by_cases he : c = c'
    · subst he
      simp [setFilterContainsCharacter]
    · simp [setFilterContainsCharacter, he, Ne.symm he]
  · simp [setFilterContainsCharacter]
  · rename_i c'
    by_cases he : 'a' = c'
    · subst he
      simp [setFilterContainsCharacter]
    · simp [setFilterContainsCharacter, he]
  · rename_i c
    by_cases he : 'a' = c
    · subst he
      simp [setFilterContainsCharacter]
    · simp [setFilterContainsCharacter, he]
  · rename_i c c'
    by_cases h1 : 'a' = c <;> by_cases h2 : 'a' = c'
    · subst h1; subst h2
      simp [setFilterContainsCharacter]
    · subst h1
      simp [setFilterContainsCharacter, h2]
    · subst h2
      simp [setFilterContainsCharacter, h1]
    · simp [setFilterContainsCharacter, h1, h2]

/-- Agreement with the first assignment is the same as pairwise agreement:
the parser's conflict flag detects exactly a pair of phrases assigning
different values to the field. -/
lemma ccAgree_iff_pairwise (lower : List Char) :
    ccAgree lower = true ↔ ∀ a ∈ ccAssigns lower, ∀ b ∈ ccAssigns lower, a = b := by
  unfold ccAgree
  rcases h : ccAssigns lower with - | ⟨a, t⟩
  · simp
  · rw [List.all_eq_true]
    constructor
    · intro hall x hx y hy
      have hx' : x = a ∨ x ∈ t := by simpa using hx
      have hy' : y = a ∨ y ∈ t := by simpa using hy
      have ha : ∀ z ∈ t, a = z := fun z hz => by simpa using hall z hz
      rcases hx' with hx' | hx' <;> rcases hy' with hy' | hy'
      · rw [hx', hy']
      · rw [hx']; exact ha y hy'
      · rw [hy']; exact (ha x hx').symm
      · rw [← ha x hx']; exact ha y hy'
    · intro hpair z hz
      have := hpair a (by simp) z (by simp [hz])
      simpa using this

/-- Field-wise characterization of the parser's rule pass. -/
lemma runRules_fields (lower : List Char) :
    (runRules lower).filters.is_palindrome =
      (if hasPalindromePhrase lower then some true else none) ∧
    (runRules lower).filters.min_length = (matchLongerThan lower).map (· + 1) ∧
    (runRules lower).filters.max_length = none ∧
    (runRules lower).filters.word_count =
      (if hasSingleWordPhrase lower then some 1 else none) ∧
    (runRules lower).filters.contains_character = (ccAssigns lower).head? ∧
    (runRules lower).conflicts.isEmpty = ccAgree lower ∧
    (runRules lower).parsed = anyPhraseRecognized lower := by
  have hL := runLengthRules_spec lower
  unfold runRules
  rw [hL]
  have hC := runCCRules_spec
    (⟨{ is_palindrome := if hasPalindromePhrase lower then some true else none
        min_length := (matchLongerThan lower).map (· + 1)
        max_length := none
        word_count := if hasSingleWordPhrase lower then some 1 else none
        contains_character := none },
      [],
      hasSingleWordPhrase lower || hasPalindromePhrase lower ||
        (matchLongerThan lower).isSome⟩ : ParseState) lower rfl rfl
  obtain ⟨h1, h2, h3, h4, h5, h6, h7⟩ := hC
  exact ⟨h1.trans rfl, h2.trans rfl, h3.trans rfl, h4.trans rfl, h5, h6,
    h7.trans (by simp [anyPhraseRecognized, Bool.or_assoc])⟩

/-- The parser's accumulated filters never violate the bounds invariant:
no rule assigns `max_length`. -/
lemma minMaxViolB_runRules (lower : List Char) :
    minMaxViolB (runRules lower).filters = false := by
  obtain ⟨-, -, hmax, -, -, -, -⟩ := runRules_fields lower
  unfold minMaxViolB
  rw [hmax]
  rcases (runRules lower).filters.min_length with - | mn <;> rfl

/-- A value trims to the empty list exactly when it is whitespace-only. -/
lemma jsTrim_eq_nil_iff (v : List Char) :
    jsTrim v = [] ↔ ∀ c ∈ v, jsWhitespace c = true := by
  constructor
  · intro h c hc
    have hb : (v.dropWhile jsWhitespace).reverse.dropWhile jsWhitespace = [] := by
      have h2 := h
      unfold jsTrim at h2
      rwa [List.reverse_eq_nil_iff] at h2
    rw [List.dropWhile_eq_nil_iff] at hb
    have hall : ∀ x ∈ v.dropWhile jsWhitespace, jsWhitespace x = true := by
      intro x hx
      exact hb x (by simpa using hx)
    have hdec := List.takeWhile_append_dropWhile (p := jsWhitespace) (l := v)
    rw [← hdec] at hc
    rcases List.mem_append.mp hc with hc | hc
    · exact List.mem_takeWhile_imp hc
    · exact hall c hc
  · exact jsTrim_eq_nil_of_all_ws

/-- A successful parse returns exactly the rule pass's accumulated filters. -/
lemma parse_success_eq {query : List Char} {f : QueryFilters}
    (h : parseNaturalLanguageQuery query = .success f) :
    f = (runRules (nlLower query)).filters := by
  unfold parseNaturalLanguageQuery at h
  by_cases ht : jsTrim query = []
  · rw [if_pos ht] at h
    exact absurd h (by simp)
  · rw [if_neg ht] at h
    split at h
    · exact absurd h (by simp)
    · split at h
      · exact absurd h (by simp)
      · split at h
        · exact absurd h (by simp)
        · injection h with h'
          exact h'.symm

/-- Where no phrase is recognized, no `contains_character` assignment
exists. -/
lemma ccAssigns_nil_of_not_recognized {lower : List Char}
    (h : anyPhraseRecognized lower = false) : ccAssigns lower = [] := by
  unfold anyPhraseRecognized at h
  simp only [Bool.or_eq_false_iff] at h
  obtain ⟨⟨⟨⟨⟨-, -⟩, -⟩, hfv⟩, hlet⟩, hchar⟩ := h
  unfold ccAssigns
  rw [hfv]
  rcases hl : matchContainsKw kwLetter lower with - | c
  · rcases hc2 : matchContainsKw kwCharacter lower with - | c
    · rfl
    · rw [hc2] at hchar
      exact Bool.noConfusion hchar
  · rw [hl] at hlet
    exact Bool.noConfusion hlet

/-- C5: the parser returns Unparsed exactly on a whitespace-only query or
one where no phrase rule recognizes anything; Conflict exactly on a
non-blank query whose recognized phrases assign two different values to the
same field (only `contains_character` can receive two) or whose accumulated
filters violate `min_length ≤ max_length`; and otherwise Success with the
accumulated filters — phrases assigning the same value twice do not
conflict. -/
theorem claim_C5 :
    ∀ query : List Char,
      (parseNaturalLanguageQuery query = .unparsed ↔
        ((∀ c ∈ query, jsWhitespace c = true) ∨
          anyPhraseRecognized (nlLower query) = false)) ∧
      (parseNaturalLanguageQuery query = .conflict ↔
        (¬ (∀ c ∈ query, jsWhitespace c = true) ∧
          (¬ (∀ a ∈ ccAssigns (nlLower query), ∀ b ∈ ccAssigns (nlLower query), a = b) ∨
            minMaxViolB (runRules (nlLower query)).filters = true))) ∧
      (∀ f, parseNaturalLanguageQuery query = .success f ↔
        (¬ (∀ c ∈ query, jsWhitespace c = true) ∧
          anyPhraseRecognized (nlLower query) = true ∧
          (∀ a ∈ ccAssigns (nlLower query), ∀ b ∈ ccAssigns (nlLower query), a = b) ∧
          f = (runRules (nlLower query)).filters)) := by
  intro query
  obtain ⟨hip, hmin, hmax, hwc, hcc, hcf, hpd⟩ := runRules_fields (nlLower query)
  have hviol := minMaxViolB_runRules (nlLower query)
  by_cases ht : jsTrim query = []
  · have hws : ∀ c ∈ query, jsWhitespace c = true := (jsTrim_eq_nil_iff query).mp ht
    have hp : parseNaturalLanguageQuery query = .unparsed := by
      unfold parseNaturalLanguageQuery
      rw [if_pos ht]
    refine ⟨iff_of_true hp (Or.inl hws), iff_of_false (by rw [hp]; simp) ?_,
      fun f => iff_of_false (by rw [hp]; simp) ?_⟩
    · rintro ⟨hn, -⟩
      exact hn hws
    · rintro ⟨hn, -, -, -⟩
      exact hn hws
  · have hnws : ¬ ∀ c ∈ query, jsWhitespace c = true :=
      fun hws => ht ((jsTrim_eq_nil_iff query).mpr hws)
    have hstep : parseNaturalLanguageQuery query =
        (if (runRules (nlLower query)).conflicts ≠ [] then .conflict
         else if minMaxViolB (runRules (nlLower query)).filters then .conflict
         else if !(runRules (nlLower query)).parsed then .unparsed
         else .success (runRules (nlLower query)).filters) := by
      unfold parseNaturalLanguageQuery
      rw [if_neg ht]
    cases hag : ccAgree (nlLower query)
    · have hne : (runRules (nlLower query)).conflicts ≠ [] := by
        intro h0
        rw [h0, hag] at hcf
        exact Bool.noConfusion hcf
      have hp : parseNaturalLanguageQuery query = .conflict := by
        rw [hstep, if_pos hne]
      have hnag : ¬ ∀ a ∈ ccAssigns (nlLower query), ∀ b ∈ ccAssigns (nlLower query), a = b := by
        intro hpair
        have := (ccAgree_iff_pairwise (nlLower query)).mpr hpair
        rw [hag] at this
        exact Bool.noConfusion this
      have hany : anyPhraseRecognized (nlLower query) = true := by
        cases hA : anyPhraseRecognized (nlLower query)
        · exact absurd (by rw [ccAssigns_nil_of_not_recognized hA]; simp) hnag
        · rfl
      refine ⟨iff_of_false (by rw [hp]; simp) ?_, iff_of_true hp ⟨hnws, Or.inl hnag⟩,
        fun f => iff_of_false (by rw [hp]; simp) ?_⟩
      · rintro (h | h)
        · exact hnws h
        · rw [hany] at h
          exact Bool.noConfusion h
      · rintro ⟨-, -, hpair, -⟩
        exact hnag hpair
    · have hcfnil : (runRules (nlLower query)).conflicts = [] := by
        rw [hag] at hcf
        simpa using hcf
      have hpair : ∀ a ∈ ccAssigns (nlLower query), ∀ b ∈ ccAssigns (nlLower query), a = b :=
        (ccAgree_iff_pairwise (nlLower query)).mp hag
      rcases Bool.eq_false_or_eq_true (anyPhraseRecognized (nlLower query)) with hA | hA
      · have hp : parseNaturalLanguageQuery query =
            .success (runRules (nlLower query)).filters := by
          rw [hstep, if_neg (by simp [hcfnil]), if_neg (by simp [hviol]),
            if_neg (by rw [hpd, hA]; simp)]
        refine ⟨iff_of_false (by rw [hp]; simp) ?_, iff_of_false (by rw [hp]; simp) ?_,
          fun f => ?_⟩
        · rintro (h | h)
          · exact hnws h
          · rw [hA] at h
            exact Bool.noConfusion h
        · rintro ⟨-, (h | h)⟩
          · exact h hpair
          · rw [hviol] at h
            exact Bool.noConfusion h
        · constructor
          · intro hs
            rw [hp] at hs
            injection hs with he
            exact ⟨hnws, hA, hpair, he.symm⟩
          · rintro ⟨-, -, -, hf⟩
            rw [hp, hf]
      · have hp : parseNaturalLanguageQuery query = .unparsed := by
          rw [hstep, if_neg (by simp [hcfnil]), if_neg (by simp [hviol]),
            if_pos (by rw [hpd, hA]; rfl)]
        refine ⟨iff_of_true hp (Or.inr hA), iff_of_false (by rw [hp]; simp) ?_,
          fun f => iff_of_false (by rw [hp]; simp) ?_⟩
        · rintro ⟨-, (h | h)⟩
          · exact h hpair
          · rw [hviol] at h
            exact Bool.noConfusion h
        · rintro ⟨-, hany, -, -⟩
          rw [hA] at hany
          exact Bool.noConfusion hany

/-- C6: the rule table — on every successful parse, `word_count = 1`
exactly when the query contains `single word`; `is_palindrome = true`
exactly when it contains `palindrome`/`palindromic`; `min_length = N + 1`
exactly when `longer than N` matches; and `contains_character` is the first
of the `first vowel` (`'a'`), `letter X`, `character X` assignments; all
recognized phrases apply together, as the two concrete queries show. -/
theorem claim_C6 :
    (∀ (query : List Char) (f : QueryFilters),
      parseNaturalLanguageQuery query = .success f →
      f.word_count = (if hasSingleWordPhrase (nlLower query) then some 1 else none) ∧
      f.is_palindrome = (if hasPalindromePhrase (nlLower query) then some true else none) ∧
      f.min_length = (matchLongerThan (nlLower query)).map (· + 1) ∧
      f.max_length = none ∧
      f.contains_character = (ccAssigns (nlLower query)).head?) ∧
    parseNaturalLanguageQuery ("single word palindromic strings".toList) =
      .success { word_count := some 1, is_palindrome := some true } ∧
    parseNaturalLanguageQuery ("strings longer than 10".toList) =
      .success { min_length := some 11 } ∧
    parseNaturalLanguageQuery ("asdkjasd".toList) = .unparsed := by
  refine ⟨?_, by decide, by decide, by decide⟩
  intro query f h
  obtain ⟨hip, hmin, hmax, hwc, hcc, -, -⟩ := runRules_fields (nlLower query)
  rw [parse_success_eq h]
  exact ⟨hwc, hip, hmin, hmax, hcc⟩

/-- C10: no phrase rule assigns `max_length`, and any `is_palindrome` the
rules assign is `true`; hence the parser's `min_length > max_length`
conflict branch can never fire — a Conflict arises only from the conflict
list — and every Success result trivially satisfies the bounds
invariant. -/
theorem claim_C10 :
    ∀ query : List Char,
      (runRules (nlLower query)).filters.max_length = none ∧
      (∀ b, (runRules (nlLower query)).filters.is_palindrome = some b → b = true) ∧
      minMaxViolB (runRules (nlLower query)).filters = false ∧
      (parseNaturalLanguageQuery query = .conflict →
        (runRules (nlLower query)).conflicts ≠ []) ∧
      (∀ f, parseNaturalLanguageQuery query = .success f →
        f.max_length = none ∧ minMaxViolB f = false) := by
  intro query
  obtain ⟨hip, hmin, hmax, hwc, hcc, hcf, hpd⟩ := runRules_fields (nlLower query)
  have hviol := minMaxViolB_runRules (nlLower query)
  refine ⟨hmax, ?_, hviol, ?_, ?_⟩
  · intro b hb
    rw [hip] at hb
    by_cases hp : hasPalindromePhrase (nlLower query) = true
    · rw [if_pos hp] at hb
      injection hb with hb
      exact hb.symm
    · rw [if_neg hp] at hb
      exact Option.noConfusion hb
  · intro hconf
    intro hnil
    unfold parseNaturalLanguageQuery at hconf
    by_cases ht : jsTrim query = []
    · rw [if_pos ht] at hconf
      exact NaturalLanguageParseResult.noConfusion hconf
    · rw [if_neg ht, if_neg (by simp [hnil]), if_neg (by simp [hviol])] at hconf
      by_cases hp : (!(runRules (nlLower query)).parsed) = true
      · rw [if_pos hp] at hconf
        exact NaturalLanguageParseResult.noConfusion hconf
      · rw [if_neg hp] at hconf
        exact NaturalLanguageParseResult.noConfusion hconf
  · intro f hf
    rw [parse_success_eq hf]
    exact ⟨hmax, hviol⟩

/-- C7: a filter set carrying `min_length > max_length` is rejected on
every entry path — the structured list route answers a validation error
(`list({min_length: 5, max_length: 3})` included), and a successful parse
of a natural-language query can never hand such filters onward. -/
theorem claim_C7 :
    (∀ (rows : List StoredStringRow) (filters : QueryFilters) (mn mx : Nat),
      filters.min_length = some mn → filters.max_length = some mx → mx < mn →
      listStringsRoute rows filters = .validationError) ∧
    (∀ (query : List Char) (f : QueryFilters),
      parseNaturalLanguageQuery query = .success f →
      ¬ ∃ mn mx, f.min_length = some mn ∧ f.max_length = some mx ∧ mx < mn) ∧
    (∀ rows : List StoredStringRow,
      listStringsRoute rows { min_length := some 5, max_length := some 3 } =
        .validationError) := by
  refine ⟨?_, ?_, fun rows => rfl⟩
  · intro rows filters mn mx hmn hmx hlt
    unfold listStringsRoute
    rw [if_pos]
    unfold minMaxViolB
    rw [hmn, hmx]
    simpa using hlt
  · intro query f hf
    rintro ⟨mn, mx, hmn, hmx, -⟩
    obtain ⟨-, -, hmax, -, -, -, -⟩ := runRules_fields (nlLower query)
    rw [parse_success_eq hf, hmax] at hmx
    exact Option.noConfusion hmx
